import Mathlib

/-!
# Verification of the cycle-store hierarchical observable store

Shallow embedding of `src/index.js` (the `Store` class): a tree of container
nodes, each owning local items, named children and a parent back-reference,
with path-based child resolution, mutation events, readonly views over
ancestors, and a reactive `get` stream with local-over-inherited precedence.

Nodes are identified by their index into an allocation list, mirroring JS
object identity (a new `Store` is a fresh allocation).  Events are collected
in emission order.  The semantics of the RxJS pipeline built by `get`
(`merge(changes$, inherit$.takeUntil(changes$))` with an optional
`startWith`) is embedded as a function from the post-subscription event
trace to the list of values the subscriber observes.
-/

namespace CycleStore

/-- Values stored in a node.  The specification's scenarios only store
strings, so values are embedded as strings. -/
abbrev Val := String

/-- A JavaScript value passed as the `name` argument of a public operation:
either a string or one of the non-string shapes the spec exercises
(number, null, NaN, regex, date, undefined). -/
inductive JSVal where
  | str (s : String)
  | num (n : Int)
  | null
  | nan
  | regex
  | date
  | undef
deriving DecidableEq, Repr

/-- Whitespace characters as far as `_.trim` is concerned (the characters
relevant to the spec's invalid-name inputs). -/
def isWhite (c : Char) : Bool :=
  c = ' ' || c = '\t' || c = '\n' || c = '\r'

/-- `!_.isEmpty(_.trim(s))`: the string has some non-whitespace character. -/
def validNameStr (s : String) : Bool :=
  s.data.any (fun c => !(isWhite c))

/-- `_.isString(name) && !_.isEmpty(_.trim(name))`, the predicate of
`throwIfInvalidName` in `src/index.js`. -/
def isValidName : JSVal → Bool
  | .str s => validNameStr s
  | _ => false

/-- Error message thrown by `throwIfInvalidName`. -/
def invalidNameMsg : String := "Parameter `name` must be a non-empty string"

/-- Error message thrown when a path segment names a non-store item. -/
def pathErrorMsg : String := "Path does not resolve to a Store."

/-- Error message thrown by every mutating method of a readonly view. -/
def roErrorMsg : String := "Ancestor Stores are read-only."

/-- `'a/b'.split('/')`, accumulating the current segment in reverse. -/
def splitAux : List Char → List Char → List String
  | [], acc => [String.mk acc.reverse]
  | c :: rest, acc =>
      if c = '/' then String.mk acc.reverse :: splitAux rest []
      else splitAux rest (c :: acc)

/-- JavaScript's `name.split('/')`: always at least one segment. -/
def splitPath (s : String) : List String :=
  splitAux s.data []

/-- One container node: local items (a JS `Map`, insertion ordered),
named children (node ids) and the optional parent id. -/
structure Node where
  items : List (String × Val)
  children : List (String × Nat)
  parent : Option Nat
deriving DecidableEq, Repr

/-- The whole store tree: nodes indexed by allocation order.  Node `0` is
the root created by the caller; `new Store(parent)` appends a node. -/
structure State where
  nodes : List Node
deriving DecidableEq, Repr

/-- The node with the given id (ids produced by the operations are always
in range; out-of-range access yields an inert empty node). -/
def getNode (σ : State) (nid : Nat) : Node :=
  σ.nodes.getD nid ⟨[], [], none⟩

/-- Replace the node with the given id. -/
def setNode (σ : State) (nid : Nat) (nd : Node) : State :=
  ⟨σ.nodes.set nid nd⟩

/-- JS `Map.prototype.has`. -/
def mapHas (m : List (String × Val)) (k : String) : Bool :=
  m.any (fun p => p.1 == k)

/-- JS `Map.prototype.get` (`none` for a missing key). -/
def mapGet (m : List (String × Val)) (k : String) : Option Val :=
  (m.find? (fun p => p.1 == k)).map (fun p => p.2)

/-- JS `Map.prototype.set`: update in place, else append. -/
def mapSet (m : List (String × Val)) (k : String) (v : Val) : List (String × Val) :=
  if mapHas m k then m.map (fun p => if p.1 == k then (k, v) else p)
  else m ++ [(k, v)]

/-- JS `Map.prototype.delete` (dropping the entry). -/
def mapDelete (m : List (String × Val)) (k : String) : List (String × Val) :=
  m.filter (fun p => p.1 != k)

/-- `children[name]` on the child table. -/
def lookupChild (m : List (String × Nat)) (k : String) : Option Nat :=
  (m.find? (fun p => p.1 == k)).map (fun p => p.2)

/-- Events emitted by the broker, tagged with the id of the emitting node:
`item-set {name, value}`, `item-removed {name}`, `store-cleared`,
`store-added {name, child}`. -/
inductive Event where
  | itemSet (nid : Nat) (name : String) (value : Val)
  | itemRemoved (nid : Nat) (name : String)
  | storeCleared (nid : Nat)
  | storeAdded (nid : Nat) (name : String) (child : Nat)
deriving DecidableEq, Repr

/-- The body of the `reduce` in `getChildStore`: resolve one intermediate
path segment from node `sid`.  An existing child is returned as-is; a
missing child with no same-named local item is allocated, registered and
announced with a `store-added` event on `sid`; a same-named local item
makes resolution fail. -/
def stepSegment (σ : State) (sid : Nat) (n : String) :
    State × List Event × Except String Nat :=
  let node := getNode σ sid
  match lookupChild node.children n with
  | some c => (σ, [], .ok c)
  | none =>
      if mapHas node.items n then (σ, [], .error pathErrorMsg)
      else
        let cid := σ.nodes.length
        let σ1 := setNode ⟨σ.nodes ++ [⟨[], [], some sid⟩]⟩ sid
          { node with children := node.children ++ [(n, cid)] }
        (σ1, [Event.storeAdded sid n cid], .ok cid)

/-- `getChildStore(base, childNames)`: fold `stepSegment` over the
segments, keeping the mutations and events of segments already resolved
when a later segment fails. -/
def getChildStore (σ : State) (base : Nat) : List String →
    State × List Event × Except String Nat
  | [] => (σ, [], .ok base)
  | n :: rest =>
      match stepSegment σ base n with
      | (σ1, evs, .ok c) =>
          match getChildStore σ1 c rest with
          | (σ2, evs2, r) => (σ2, evs ++ evs2, r)
      | (σ1, evs, .error e) => (σ1, evs, .error e)

/-- `getPropData(base, name)`: split the name, pop the final segment as the
target key, resolve the intermediate segments as child traversal. -/
def getPropData (σ : State) (base : Nat) (name : String) :
    State × List Event × Except String (Nat × String) :=
  let names := splitPath name
  let prop := names.getLastD ""
  match getChildStore σ base names.dropLast with
  | (σ1, evs, .ok sid) => (σ1, evs, .ok (sid, prop))
  | (σ1, evs, .error e) => (σ1, evs, .error e)

/-- `Store#for(name)`: validate, then resolve the entire split path as
child traversal and return the resulting node id. -/
def Store.forName (σ : State) (sid : Nat) (name : JSVal) :
    State × List Event × Except String Nat :=
  match name with
  | .str s =>
      if validNameStr s then getChildStore σ sid (splitPath s)
      else (σ, [], .error invalidNameMsg)
  | _ => (σ, [], .error invalidNameMsg)

/-- `Store#has(name)`: validate, then look the whole name up in this
node's own items (no path split, no traversal). -/
def Store.has (σ : State) (sid : Nat) (name : JSVal) : Except String Bool :=
  match name with
  | .str s =>
      if validNameStr s then .ok (mapHas (getNode σ sid).items s)
      else .error invalidNameMsg
  | _ => .error invalidNameMsg

/-- `Store#set(name, value)`: validate, resolve, store the value under the
final segment on the resolved node, emit `item-set {name: prop, value}`
there, and return the id `set` was called on (for chaining). -/
def Store.set (σ : State) (sid : Nat) (name : JSVal) (v : Val) :
    State × List Event × Except String Nat :=
  match name with
  | .str s =>
      if validNameStr s then
        match getPropData σ sid s with
        | (σ1, evs, .ok (store, prop)) =>
            let node := getNode σ1 store
            (setNode σ1 store { node with items := mapSet node.items prop v },
             evs ++ [Event.itemSet store prop v], .ok sid)
        | (σ1, evs, .error e) => (σ1, evs, .error e)
      else (σ, [], .error invalidNameMsg)
  | _ => (σ, [], .error invalidNameMsg)

/-- `Store#delete(name)` as shipped in `src/index.js`: validate, resolve,
remove the key from the resolved node and emit `item-removed {name: prop}`
there — with **no** existence check, so the event fires even when the key
was never set. -/
def Store.delete (σ : State) (sid : Nat) (name : JSVal) :
    State × List Event × Except String Unit :=
  match name with
  | .str s =>
      if validNameStr s then
        match getPropData σ sid s with
        | (σ1, evs, .ok (store, prop)) =>
            let node := getNode σ1 store
            (setNode σ1 store { node with items := mapDelete node.items prop },
             evs ++ [Event.itemRemoved store prop], .ok ())
        | (σ1, evs, .error e) => (σ1, evs, .error e)
      else (σ, [], .error invalidNameMsg)
  | _ => (σ, [], .error invalidNameMsg)

/-- `Store.prototype.remove`, an alias of `delete`. -/
def Store.remove (σ : State) (sid : Nat) (name : JSVal) :
    State × List Event × Except String Unit :=
  Store.delete σ sid name

/-- `Store#clear(nested)` with explicit fuel for the recursion into
children (child ids strictly exceed their parent's id in reachable states,
so `σ.nodes.length` fuel always suffices): remove every local item with an
`item-removed` event each, recursively clear the children when `nested`,
and finally emit this node's `store-cleared`. -/
def clearFuel : Nat → State → Nat → Bool → State × List Event
  | 0, σ, _, _ => (σ, [])
  | fuel + 1, σ, sid, nested =>
      let node := getNode σ sid
      let removedEvs := node.items.map (fun p => Event.itemRemoved sid p.1)
      let σ1 := setNode σ sid { node with items := [] }
      let step := fun (acc : State × List Event) (c : String × Nat) =>
        ((clearFuel fuel acc.1 c.2 true).1,
         acc.2 ++ (clearFuel fuel acc.1 c.2 true).2)
      let after := if nested then node.children.foldl step (σ1, []) else (σ1, [])
      (after.1, removedEvs ++ after.2 ++ [Event.storeCleared sid])

/-- `Store#clear(nested)`. -/
def Store.clear (σ : State) (sid : Nat) (nested : Bool) : State × List Event :=
  clearFuel σ.nodes.length σ sid nested

/-- A readonly view (`readonly(store)` in the source): a proxy over one
underlying node whose `set`/`delete`/`clear` are replaced by
`readonlyMethod` and whose `for`/`has`/`parent`/`root` are rebound to the
underlying store. -/
structure RoView where
  nid : Nat
deriving DecidableEq, Repr

/-- `Store#parent()`: the immediate parent wrapped readonly, or nothing. -/
def Store.parent (σ : State) (sid : Nat) : Option RoView :=
  (getNode σ sid).parent.map RoView.mk

/-- Walk the parent chain to the topmost node (fuelled like `clearFuel`). -/
def rootFuel : Nat → State → Nat → Nat
  | 0, _, sid => sid
  | fuel + 1, σ, sid =>
      match (getNode σ sid).parent with
      | none => sid
      | some p => rootFuel fuel σ p

/-- `Store#root()`: the topmost ancestor wrapped readonly. -/
def Store.root (σ : State) (sid : Nat) : RoView :=
  ⟨rootFuel σ.nodes.length σ sid⟩

/-- `readonlyMethod` behind the proxy's `set`: throws unconditionally,
before looking at any argument, with no state change and no event. -/
def RoView.set (σ : State) (_r : RoView) (_name : JSVal) (_v : Val) :
    State × List Event × Except String Nat :=
  (σ, [], .error roErrorMsg)

/-- `readonlyMethod` behind the proxy's `delete`. -/
def RoView.delete (σ : State) (_r : RoView) (_name : JSVal) :
    State × List Event × Except String Unit :=
  (σ, [], .error roErrorMsg)

/-- `readonlyMethod` behind the proxy's `clear`. -/
def RoView.clear (σ : State) (_r : RoView) (_nested : Bool) :
    State × List Event × Except String Unit :=
  (σ, [], .error roErrorMsg)

/-- The proxy's `for`, rebound to the underlying store: resolves against
the wrapped node and returns the raw (writable) child store. -/
def RoView.forName (σ : State) (r : RoView) (name : JSVal) :
    State × List Event × Except String Nat :=
  Store.forName σ r.nid name

/-- The proxy's `has`, rebound to the underlying store. -/
def RoView.has (σ : State) (r : RoView) (name : JSVal) : Except String Bool :=
  Store.has σ r.nid name

/-- The proxy's `parent`, rebound to the underlying store. -/
def RoView.parent (σ : State) (r : RoView) : Option RoView :=
  Store.parent σ r.nid

/-- The proxy's `root`, rebound to the underlying store. -/
def RoView.root (σ : State) (r : RoView) : RoView :=
  Store.root σ r.nid

/-- The observable built by `Store#get`: everything state-dependent in the
pipeline (`items.has(prop)`, the `startWith` value, the recursively built
parent observables) is captured when `get` runs, so the description is the
snapshot state together with the resolved node, the filter string of the
outer `changes$` (the *full* name passed to `get`) and the target key. -/
structure ObsDesc where
  snapshot : State
  nid : Nat
  filterName : String
  prop : String
deriving DecidableEq, Repr

/-- `Store#get(name)`: validate, resolve via `getPropData` (possibly
creating children), and build the pipeline.  Building `inherit$` eagerly
calls `parent.get(prop)`, which re-validates `prop`; with no parent the
inherited stream is `Observable.empty()` and no validation happens. -/
def Store.get (σ : State) (sid : Nat) (name : JSVal) :
    State × List Event × Except String ObsDesc :=
  match name with
  | .str s =>
      if validNameStr s then
        match getPropData σ sid s with
        | (σ1, evs, .ok (store, prop)) =>
            match (getNode σ1 store).parent with
            | some _ =>
                if validNameStr prop then (σ1, evs, .ok ⟨σ1, store, s, prop⟩)
                else (σ1, evs, .error invalidNameMsg)
            | none => (σ1, evs, .ok ⟨σ1, store, s, prop⟩)
        | (σ1, evs, .error e) => (σ1, evs, .error e)
      else (σ, [], .error invalidNameMsg)
  | _ => (σ, [], .error invalidNameMsg)

/-- Does this trace event pass `filter(matches({name: fname}))` of the
`changes$` stream attached to node `nid`? -/
def matchesSet (nid : Nat) (fname : String) : Event → Bool
  | .itemSet n nm _ => n == nid && nm == fname
  | _ => false

/-- The values `changes$` delivers from a trace (`pluck('value')`). -/
def localVals (nid : Nat) (fname : String) (tr : List Event) : List Val :=
  tr.filterMap (fun e =>
    match e with
    | .itemSet n nm v => if n == nid && nm == fname then some v else none
    | _ => none)

/-- Observed values of the merged stream
`merge(changes$, inherit$.takeUntil(changes$))` over a post-subscription
event trace.  When the node held the key at `get` time, `changes$` starts
with the captured value and the same start value fires the `takeUntil`
notifier during subscription, so the inherited stream is never consulted.
Otherwise the inherited stream (the parent's observable for the bare key)
runs until the first local `item-set` matching the filter, which both
delivers its value and cuts inheritance from that point on; emissions stay
in trace order, so the merge is inherited-prefix followed by local values.
Fuel bounds the parent-chain recursion (parent ids are strictly smaller
than their children's in reachable states, so `nid + 1` suffices). -/
def getObservedFuel : Nat → State → Nat → String → String → List Event → List Val
  | 0, _, _, _, _, _ => []
  | fuel + 1, σ, nid, fname, prop, tr =>
      let node := getNode σ nid
      match mapGet node.items prop with
      | some v => v :: localVals nid fname tr
      | none =>
          let cut := tr.findIdx (matchesSet nid fname)
          let inh :=
            match node.parent with
            | none => []
            | some p => getObservedFuel fuel σ p prop prop (tr.take cut)
          inh ++ localVals nid fname tr

/-- Subscribe to the observable `get` returned: the subscriber observes,
in order, exactly these values for a given trace of events emitted after
the subscription (`fromEvent` attaches its listeners only at subscribe, so
events emitted between the `get` call and the subscription never reach
this subscriber). -/
def subscribeObs (d : ObsDesc) (tr : List Event) : List Val :=
  getObservedFuel (d.nid + 1) d.snapshot d.nid d.filterName d.prop tr

/-- Run a list of `set` calls `(callee node, name, value)` in order,
collecting the emitted events. -/
def runSets (σ : State) : List (Nat × JSVal × Val) → State × List Event
  | [] => (σ, [])
  | (sid, n, v) :: rest =>
      match Store.set σ sid n v with
      | (σ1, evs, _) =>
          match runSets σ1 rest with
          | (σ2, evs2) => (σ2, evs ++ evs2)

/-- Well-formedness of one node: children ids point strictly downward in
allocation order is impossible — they are allocated after their parent, so
they strictly exceed the node's id and stay in range; the parent id is
strictly smaller. -/
def nodeWF (len i : Nat) (nd : Node) : Bool :=
  nd.children.all (fun p => i < p.2 && p.2 < len) &&
  (match nd.parent with
   | none => true
   | some q => q < i)

/-- Well-formedness of a store tree, true of every state reachable from a
fresh root. -/
def WF (σ : State) : Bool :=
  (List.range σ.nodes.length).all (fun i => nodeWF σ.nodes.length i (getNode σ i))

/-! ## Concrete scenario states -/

/-- A freshly constructed root store (`new Store()`), node id `0`. -/
def rootOnly : State := ⟨[⟨[], [], none⟩]⟩

/-- The tree after `root.for('child')` on a fresh root: the child is node
id `1`. -/
def rootChild : State := (Store.forName rootOnly 0 (.str "child")).1

/-- The observable returned by `child.get('key')` in the `rootChild`
tree. -/
def c1Desc : ObsDesc := ⟨rootChild, 1, "key", "key"⟩

/-- The events emitted by the C1 mutation sequence
`root.set('key','a') … child.set('key','g')` run after the subscription. -/
def c1Trace : List Event :=
  (runSets rootChild
    [(0, .str "key", "a"), (0, .str "key", "b"), (0, .str "key", "c"),
     (1, .str "key", "d"), (0, .str "key", "e"), (0, .str "key", "f"),
     (1, .str "key", "g")]).2

/-- The observable returned by `root.get('child/key')` on a fresh root
(the filter string is the full path, the target key the final segment). -/
def c3Desc : ObsDesc := ⟨rootChild, 1, "child/key", "key"⟩

/-- A root holding item `a` with one child holding item `b`, for the
`clear(true)` ordering scenario. -/
def clearTree : State :=
  ⟨[⟨[("a", "1")], [("child", 1)], none⟩, ⟨[("b", "2")], [], some 0⟩]⟩

/-! ## Claim theorems -/

/-- C1: for a subscriber to `child.get('key')` subscribed before any
mutation, the sequence `root.set('key','a'); root.set('key','b');
root.set('key','c'); child.set('key','d'); root.set('key','e');
root.set('key','f'); child.set('key','g')` is observed exactly as
`a, b, c, d, g`: inherited parent values are delivered until the first
local set, after which no later parent set appears, and delivered values
are never retracted (the observation list of a longer trace extends that
of its prefix). -/
theorem c1_interleaved_sets :
    Store.forName rootOnly 0 (.str "child")
      = (rootChild, [Event.storeAdded 0 "child" 1], .ok 1) ∧
    Store.get rootChild 1 (.str "key") = (rootChild, [], .ok c1Desc) ∧
    c1Trace =
      [Event.itemSet 0 "key" "a", Event.itemSet 0 "key" "b",
       Event.itemSet 0 "key" "c", Event.itemSet 1 "key" "d",
       Event.itemSet 0 "key" "e", Event.itemSet 0 "key" "f",
       Event.itemSet 1 "key" "g"] ∧
    subscribeObs c1Desc c1Trace = ["a", "b", "c", "d", "g"] ∧
    (∀ k, subscribeObs c1Desc (c1Trace.take k) <+: subscribeObs c1Desc c1Trace) := by
  refine ⟨rfl, rfl, rfl, by decide, ?_⟩
  intro k
  have hlen : c1Trace.length = 7 := by decide
  match k with
  | 0 => exact ⟨["a","b","c","d","g"], by decide⟩
  | 1 => exact ⟨["b","c","d","g"], by decide⟩
  | 2 => exact ⟨["c","d","g"], by decide⟩
  | 3 => exact ⟨["d","g"], by decide⟩
  | 4 => exact ⟨["g"], by decide⟩
  | 5 => exact ⟨["g"], by decide⟩
  | 6 => exact ⟨["g"], by decide⟩
  | n + 7 =>
      rw [List.take_of_length_le (by omega)]

/-- C2 (counterexample): the claim predicts that a subscriber evaluates
local state at subscribe time, so a value set between the call to `get`
and a later subscribe is still replayed as the first element.  In the
code the `startWith` value and the `items.has` decision are captured when
`get` runs: here `get('k')` is called on a fresh root, `'k'` is then set
to `'v'` (so the node holds `'v'` at subscribe time, witnessed by `has`),
yet a subscriber attached afterwards (post-subscription trace empty)
observes nothing instead of the claimed replay `['v']`. -/
theorem c2_counterexample_snapshot_at_get_time :
    Store.get rootOnly 0 (.str "k") = (rootOnly, [], .ok ⟨rootOnly, 0, "k", "k"⟩) ∧
    (Store.set rootOnly 0 (.str "k") "v").2.1 = [Event.itemSet 0 "k" "v"] ∧
    Store.has (Store.set rootOnly 0 (.str "k") "v").1 0 (.str "k") = .ok true ∧
    subscribeObs ⟨rootOnly, 0, "k", "k"⟩ [] = [] ∧
    ([] : List Val) ≠ ["v"] :=
  ⟨rfl, rfl, rfl, by decide, by decide⟩

/-- C2 (amended): each subscription evaluates local state as of the
moment `get` was called, not as of subscribe time — if the node holds a
local value for the bare key when `get` runs, every subscriber receives
that captured value as its first element, whatever trace it goes on to
observe. -/
theorem c2_amended_replay_of_get_time_value (σ : State) (sid : Nat) (k : String) (v : Val)
    (hvalid : validNameStr k = true) (hsplit : splitPath k = [k])
    (hget : mapGet (getNode σ sid).items k = some v) :
    Store.get σ sid (.str k) = (σ, [], .ok ⟨σ, sid, k, k⟩) ∧
    ∀ tr, (subscribeObs ⟨σ, sid, k, k⟩ tr).head? = some v := by
  constructor
  · show Store.get σ sid (.str k) = _
    rw [Store.get]
    simp only [hvalid, if_true]
    rw [getPropData, hsplit]
    simp only [List.dropLast_single, List.getLastD_cons, List.getLastD_nil, getChildStore]
    cases hpar : (getNode σ sid).parent <;> simp [hvalid]
  · intro tr
    rw [subscribeObs]
    show (getObservedFuel (sid + 1) σ sid k k tr).head? = some v
    rw [getObservedFuel, hget]
    rfl

/-- Closed witness for the amended C2 theorem, at a root whose `'k'` was
set to `'v'` before `get` was called: the first observed element is the
captured `'v'` for a sample trace. -/
theorem c2_amended_witness :
    Store.get (Store.set rootOnly 0 (.str "k") "v").1 0 (.str "k")
      = ((Store.set rootOnly 0 (.str "k") "v").1, [],
         .ok ⟨(Store.set rootOnly 0 (.str "k") "v").1, 0, "k", "k"⟩) ∧
    (subscribeObs ⟨(Store.set rootOnly 0 (.str "k") "v").1, 0, "k", "k"⟩
      [Event.itemSet 0 "k" "w"]).head? = some "v" :=
  ⟨(c2_amended_replay_of_get_time_value _ 0 "k" "v" (by decide) (by decide) (by decide)).1,
   (c2_amended_replay_of_get_time_value _ 0 "k" "v" (by decide) (by decide) (by decide)).2 _⟩

/-- C3: the code contradicts its own documented contract for
slash-delimited names (doc example at `src/index.js` lines 251-264: after
subscribing `store.get('some/child/key')`, `store.set('some/child/key', 0)`
is said to deliver `0`).  `get('child/key')` builds `changes$` filtering
`item-set` events by the **full** string `'child/key'`, while
`set('child/key', v)` emits `{name: 'key'}` on the child node, so the
subscriber observes nothing from any local set on the resolved key; an
inherited bare-key set on the root still flows through `inherit$`,
confirming the filter asymmetry is the cause. -/
theorem c3_slash_path_get_never_sees_local_sets :
    Store.get rootOnly 0 (.str "child/key")
      = (rootChild, [Event.storeAdded 0 "child" 1], .ok c3Desc) ∧
    (Store.set rootChild 0 (.str "child/key") "value").2.1
      = [Event.itemSet 1 "key" "value"] ∧
    (Store.set rootChild 1 (.str "key") "value").2.1
      = [Event.itemSet 1 "key" "value"] ∧
    subscribeObs c3Desc [Event.itemSet 1 "key" "value"] = [] ∧
    ([] : List Val) ≠ ["value"] ∧
    subscribeObs c3Desc [Event.itemSet 0 "key" "w"] = ["w"] :=
  ⟨rfl, rfl, rfl, by decide, by decide, by decide⟩

/-- C4: `delete` in `src/index.js` removes and emits unconditionally, so
deleting the never-set key `'dne'` on a fresh root still emits
`item-removed {name:'dne'}` — the claim (and the spec's intended guarded
contract, spec §9) says a missing key is a silent no-op.  The second half
of the claim does hold: deleting an existing key removes it (`has`
becomes false) and emits exactly one `item-removed` with that key's
name. -/
theorem c4_delete_missing_key_still_emits :
    Store.has rootOnly 0 (.str "dne") = .ok false ∧
    Store.delete rootOnly 0 (.str "dne") = (rootOnly, [Event.itemRemoved 0 "dne"], .ok ()) ∧
    [Event.itemRemoved 0 "dne"] ≠ ([] : List Event) ∧
    Store.delete (Store.set rootOnly 0 (.str "key") "value").1 0 (.str "key")
      = (rootOnly, [Event.itemRemoved 0 "key"], .ok ()) ∧
    Store.has rootOnly 0 (.str "key") = .ok false :=
  ⟨rfl, rfl, by decide, rfl, rfl⟩

/-- C5 (counterexample): on a root holding item `a` with one child
holding item `b`, `clear(true)` emits the root's `store-cleared` **after**
the child's full clear-and-emit sequence, not before it as the claim
states (`[item-removed root a, store-cleared root, item-removed child b,
store-cleared child]`). -/
theorem c5_counterexample_cleared_after_children :
    (Store.clear clearTree 0 true).2 =
      [Event.itemRemoved 0 "a", Event.itemRemoved 1 "b",
       Event.storeCleared 1, Event.storeCleared 0] ∧
    (Store.clear clearTree 0 true).2 ≠
      [Event.itemRemoved 0 "a", Event.storeCleared 0,
       Event.itemRemoved 1 "b", Event.storeCleared 1] :=
  ⟨by decide, by decide⟩

/-! ## Helper lemmas about the state representation -/

theorem length_setNode (σ : State) (nid : Nat) (nd : Node) :
    (setNode σ nid nd).nodes.length = σ.nodes.length := by
  simp [setNode]

theorem getNode_setNode_self (σ : State) (nid : Nat) (nd : Node)
    (h : nid < σ.nodes.length) : getNode (setNode σ nid nd) nid = nd := by
  simp [getNode, setNode, List.getD_eq_getElem?_getD, List.getElem?_set_self h]

theorem getNode_setNode_ne (σ : State) (nid j : Nat) (nd : Node)
    (h : nid ≠ j) : getNode (setNode σ nid nd) j = getNode σ j := by
  simp [getNode, setNode, List.getD_eq_getElem?_getD, List.getElem?_set_ne h]

theorem getNode_append_lt (σ : State) (nd : Node) (j : Nat)
    (h : j < σ.nodes.length) : getNode ⟨σ.nodes ++ [nd]⟩ j = getNode σ j := by
  simp [getNode, List.getD_eq_getElem?_getD, List.getElem?_append_left h]

theorem getNode_append_self (σ : State) (nd : Node) :
    getNode ⟨σ.nodes ++ [nd]⟩ σ.nodes.length = nd := by
  simp [getNode, List.getD_eq_getElem?_getD, List.getElem?_concat_length]

theorem lookupChild_append_none (m : List (String × Nat)) (k : String) (c : Nat)
    (h : lookupChild m k = none) : lookupChild (m ++ [(k, c)]) k = some c := by
  unfold lookupChild at h ⊢
  rw [Option.map_eq_none'] at h
  rw [List.find?_append, h]
  simp [List.find?_cons]

theorem lookupChild_mem {m : List (String × Nat)} {k : String} {c : Nat}
    (h : lookupChild m k = some c) : ∃ nm, (nm, c) ∈ m := by
  unfold lookupChild at h
  cases hf : m.find? (fun p => p.1 == k) with
  | none => rw [hf] at h; simp at h
  | some p =>
      rw [hf] at h
      simp only [Option.map_some', Option.some.injEq] at h
      refine ⟨p.1, ?_⟩
      have hm := List.mem_of_find?_eq_some hf
      rwa [show (p.1, c) = p from by rw [← h]]

/-- Unpacked form of the well-formedness invariant. -/
theorem WF_iff (σ : State) : WF σ = true ↔
    ∀ i, i < σ.nodes.length →
      ((∀ p ∈ (getNode σ i).children, i < p.2 ∧ p.2 < σ.nodes.length) ∧
       (∀ q, (getNode σ i).parent = some q → q < i)) := by
  unfold WF nodeWF
  rw [List.all_eq_true]
  constructor
  · intro h i hi
    have hh := h i (List.mem_range.2 hi)
    simp only [Bool.and_eq_true, List.all_eq_true, decide_eq_true_eq] at hh
    refine ⟨fun p hp => hh.1 p hp, fun q hq => ?_⟩
    have h2 := hh.2
    rw [hq] at h2
    simpa using h2
  · intro h i hi
    rw [List.mem_range] at hi
    have hh := h i hi
    simp only [Bool.and_eq_true, List.all_eq_true, decide_eq_true_eq]
    refine ⟨fun p hp => hh.1 p hp, ?_⟩
    cases hpar : (getNode σ i).parent with
    | none => simp
    | some q => simpa using hh.2 q hpar

/-- A failing segment resolution leaves the state untouched and emits
nothing (the throw happens before any mutation of that segment). -/
theorem stepSegment_error {σ : State} {sid : Nat} {n : String} {σ1 : State}
    {evs : List Event} {e : String}
    (h : stepSegment σ sid n = (σ1, evs, .error e)) :
    σ1 = σ ∧ evs = [] ∧ e = pathErrorMsg := by
  simp only [stepSegment] at h
  cases hl : lookupChild (getNode σ sid).children n with
  | some c => rw [hl] at h; simp at h
  | none =>
      rw [hl] at h
      by_cases hh : mapHas (getNode σ sid).items n = true
      · rw [if_pos hh] at h
        simp only [Prod.mk.injEq, Except.error.injEq] at h
        exact ⟨h.1.symm, h.2.1.symm, h.2.2.symm⟩
      · rw [if_neg hh] at h; simp at h

/-- A successful segment resolution preserves well-formedness, returns a
strictly larger in-range id, grows the allocation list monotonically,
leaves nodes below the current one untouched, and leaves the resolved
child registered under the segment name. -/
theorem stepSegment_ok {σ : State} {sid : Nat} {n : String} {σ' : State}
    {evs : List Event} {c : Nat}
    (hwf : WF σ = true) (hs : sid < σ.nodes.length)
    (h : stepSegment σ sid n = (σ', evs, .ok c)) :
    WF σ' = true ∧ sid < c ∧ c < σ'.nodes.length ∧
    σ.nodes.length ≤ σ'.nodes.length ∧
    (∀ j, j < sid → getNode σ' j = getNode σ j) ∧
    lookupChild (getNode σ' sid).children n = some c := by
  simp only [stepSegment] at h
  cases hl : lookupChild (getNode σ sid).children n with
  | some c0 =>
      rw [hl] at h
      simp only [Prod.mk.injEq, Except.ok.injEq] at h
      obtain ⟨h1, _, h3⟩ := h
      obtain ⟨nm, hmem⟩ := lookupChild_mem hl
      have hc0 := ((WF_iff σ).1 hwf sid hs).1 _ hmem
      subst h3
      exact ⟨h1 ▸ hwf, hc0.1, h1 ▸ hc0.2, h1 ▸ le_refl _, fun j _ => by rw [← h1],
        h1 ▸ hl⟩
  | none =>
      rw [hl] at h
      by_cases hh : mapHas (getNode σ sid).items n = true
      · rw [if_pos hh] at h; simp at h
      · rw [if_neg hh] at h
        simp only [Prod.mk.injEq, Except.ok.injEq] at h
        obtain ⟨h1, _, h3⟩ := h
        have hcc : σ.nodes.length = c := h3
        have hlen' : σ'.nodes.length = σ.nodes.length + 1 := by
          rw [← h1, length_setNode]; simp
        have hslt : sid < σ.nodes.length + 1 := Nat.lt_succ_of_lt hs
        have hgs : getNode σ' sid =
            { getNode σ sid with children := (getNode σ sid).children ++ [(n, σ.nodes.length)] } := by
          rw [← h1]
          exact getNode_setNode_self _ _ _ (by simpa using hslt)
        have hgnew : getNode σ' σ.nodes.length = ⟨[], [], some sid⟩ := by
          rw [← h1, getNode_setNode_ne _ _ _ _ (Nat.ne_of_lt hs)]
          exact getNode_append_self σ _
        have hother : ∀ j, j < σ.nodes.length → j ≠ sid → getNode σ' j = getNode σ j := by
          intro j hj hjs
          rw [← h1, getNode_setNode_ne _ _ _ _ (Ne.symm hjs)]
          exact getNode_append_lt σ _ j hj
        refine ⟨?_, hcc ▸ hs, hcc ▸ hlen' ▸ Nat.lt_succ_self _, hlen' ▸ Nat.le_succ _,
          fun j hj => hother j (lt_trans hj hs) (Nat.ne_of_lt hj), ?_⟩
        · rw [WF_iff]
          intro i hi
          rw [hlen'] at hi
          rcases Nat.lt_succ_iff_lt_or_eq.1 hi with hilt | hieq
          · by_cases his : i = sid
            · subst his
              rw [hgs]
              constructor
              · intro p hp
                rcases List.mem_append.1 hp with hpold | hpnew
                · have := ((WF_iff σ).1 hwf i hilt).1 p hpold
                  exact ⟨this.1, by omega⟩
                · simp only [List.mem_singleton] at hpnew
                  subst hpnew
                  exact ⟨hs, by omega⟩
              · intro q hq
                exact ((WF_iff σ).1 hwf i hilt).2 q hq
            · rw [hother i hilt his]
              have := (WF_iff σ).1 hwf i hilt
              exact ⟨fun p hp => ⟨(this.1 p hp).1, by have := (this.1 p hp).2; omega⟩,
                this.2⟩
          · subst hieq
            rw [hgnew]
            exact ⟨fun p hp => absurd hp (List.not_mem_nil p),
              fun q hq => by injection hq with hq'; omega⟩
        · rw [hgs]
          exact hcc ▸ lookupChild_append_none _ _ _ hl

/-- Path traversal preserves well-formedness, only grows the allocation
list, never touches nodes strictly below its starting point, and on
success returns an in-range id at or above the starting point. -/
theorem getChildStore_run : ∀ (names : List String) (σ : State) (base : Nat)
    (σ' : State) (evs : List Event) (r : Except String Nat),
    WF σ = true → base < σ.nodes.length →
    getChildStore σ base names = (σ', evs, r) →
    WF σ' = true ∧ σ.nodes.length ≤ σ'.nodes.length ∧
    (∀ j, j < base → getNode σ' j = getNode σ j) ∧
    (∀ c, r = .ok c → base ≤ c ∧ c < σ'.nodes.length) := by
  intro names
  induction names with
  | nil =>
      intro σ base σ' evs r hwf hb h
      simp only [getChildStore, Prod.mk.injEq] at h
      obtain ⟨h1, _, h3⟩ := h
      subst h1
      refine ⟨hwf, le_refl _, fun j _ => rfl, fun c hc => ?_⟩
      rw [← h3] at hc
      injection hc with hc'
      omega
  | cons n rest ih =>
      intro σ base σ' evs r hwf hb h
      simp only [getChildStore] at h
      rcases hstep : stepSegment σ base n with ⟨σ1, evs1, r1⟩
      rw [hstep] at h
      cases r1 with
      | error e =>
          dsimp only at h
          simp only [Prod.mk.injEq] at h
          obtain ⟨h1, _, h3⟩ := h
          obtain ⟨hσ, _, _⟩ := stepSegment_error hstep
          subst h1 hσ
          refine ⟨hwf, le_refl _, fun j _ => rfl, fun c hc => ?_⟩
          rw [← h3] at hc
          cases hc
      | ok c =>
          obtain ⟨hwf1, hbc, hc1, hlen1, hframe1, _⟩ := stepSegment_ok hwf hb hstep
          dsimp only at h
          rcases hrun : getChildStore σ1 c rest with ⟨σ2, evs2, r2⟩
          rw [hrun] at h
          simp only [Prod.mk.injEq] at h
          obtain ⟨h1, _, h3⟩ := h
          subst h1 h3
          obtain ⟨hwf2, hlen2, hframe2, hok2⟩ := ih σ1 c σ2 evs2 r2 hwf1 hc1 hrun
          refine ⟨hwf2, le_trans hlen1 hlen2, fun j hj => ?_, fun c2 hc2 => ?_⟩
          · rw [hframe2 j (lt_trans hj hbc), hframe1 j hj]
          · obtain ⟨hle, hlt⟩ := hok2 c2 hc2
            exact ⟨le_trans (le_of_lt hbc) hle, hlt⟩

/-- Re-running a successful path traversal from the state it produced is
a pure lookup: it returns the same node, changes nothing and emits
nothing (child creation is idempotent). -/
theorem getChildStore_rerun : ∀ (names : List String) (σ : State) (base : Nat)
    (σ' : State) (evs : List Event) (nid : Nat),
    WF σ = true → base < σ.nodes.length →
    getChildStore σ base names = (σ', evs, .ok nid) →
    getChildStore σ' base names = (σ', [], .ok nid) := by
  intro names
  induction names with
  | nil =>
      intro σ base σ' evs nid hwf hb h
      simp only [getChildStore, Prod.mk.injEq, Except.ok.injEq] at h
      obtain ⟨h1, _, h3⟩ := h
      subst h1 h3
      rfl
  | cons n rest ih =>
      intro σ base σ' evs nid hwf hb h
      simp only [getChildStore] at h
      rcases hstep : stepSegment σ base n with ⟨σ1, evs1, r1⟩
      rw [hstep] at h
      cases r1 with
      | error e => simp at h
      | ok c =>
          obtain ⟨hwf1, hbc, hc1, hlen1, _, hlook1⟩ := stepSegment_ok hwf hb hstep
          dsimp only at h
          rcases hrun : getChildStore σ1 c rest with ⟨σ2, evs2, r2⟩
          rw [hrun] at h
          simp only [Prod.mk.injEq] at h
          obtain ⟨h1, _, h3⟩ := h
          subst h1 h3
          obtain ⟨_, _, hframe2, _⟩ := getChildStore_run rest σ1 c σ2 evs2 (.ok nid) hwf1 hc1 hrun
          have hlook' : lookupChild (getNode σ2 base).children n = some c := by
            rw [hframe2 base hbc]; exact hlook1
          have hstep' : stepSegment σ2 base n = (σ2, [], .ok c) := by
            simp only [stepSegment, hlook']
          simp only [getChildStore, hstep']
          rw [ih σ1 c σ2 evs2 nid hwf1 hc1 hrun]
          rfl

/-- C7: child resolution is idempotent — `for('a/b')` run again from the
state the first call produced returns the very same node id with no new
state and no events (no duplicate child), and `for('a')` followed by
`for('b')` lands on the same node (and same state) as `for('a/b')`. -/
theorem c7_child_resolution_idempotent (σ : State) (sid : Nat)
    (hwf : WF σ = true) (hs : sid < σ.nodes.length) :
    (∀ σ1 evs n1, Store.forName σ sid (.str "a/b") = (σ1, evs, .ok n1) →
      Store.forName σ1 sid (.str "a/b") = (σ1, [], .ok n1)) ∧
    (∀ σ1 evs n1 σa evsa na,
      Store.forName σ sid (.str "a/b") = (σ1, evs, .ok n1) →
      Store.forName σ sid (.str "a") = (σa, evsa, .ok na) →
      ∃ evsb, Store.forName σa na (.str "b") = (σ1, evsb, .ok n1)) := by
  have hv : validNameStr "a/b" = true := by decide
  have hva : validNameStr "a" = true := by decide
  have hvb : validNameStr "b" = true := by decide
  have hspl : splitPath "a/b" = ["a", "b"] := rfl
  have hspla : splitPath "a" = ["a"] := rfl
  have hsplb : splitPath "b" = ["b"] := rfl
  constructor
  · intro σ1 evs n1 h
    simp only [Store.forName, hv, if_true, hspl] at h ⊢
    exact getChildStore_rerun _ σ sid σ1 evs n1 hwf hs h
  · intro σ1 evs n1 σa evsa na h ha
    simp only [Store.forName, hv, hva, hvb, if_true, hspl, hspla, hsplb] at h ha ⊢
    have hcons : ∀ (σ0 : State) (b : Nat) (x : String) (xs : List String),
        getChildStore σ0 b (x :: xs) =
          match stepSegment σ0 b x with
          | (σ1, evs1, .ok c) =>
              match getChildStore σ1 c xs with
              | (σ2, evs2, r) => (σ2, evs1 ++ evs2, r)
          | (σ1, evs1, .error e) => (σ1, evs1, .error e) :=
      fun _ _ _ _ => rfl
    rw [hcons] at h ha
    rcases hstep : stepSegment σ sid "a" with ⟨σs, evss, rs⟩
    rw [hstep] at h ha
    cases rs with
    | error e => simp at h
    | ok c =>
        dsimp only at h ha
        simp only [getChildStore, Prod.mk.injEq, Except.ok.injEq] at ha
        obtain ⟨ha1, _, ha3⟩ := ha
        subst ha1 ha3
        rcases hrun : getChildStore σs c ["b"] with ⟨σ2, evs2, r2⟩
        rw [hrun] at h
        dsimp only at h
        simp only [Prod.mk.injEq] at h
        obtain ⟨h1, _, h3⟩ := h
        subst h1 h3
        exact ⟨evs2, rfl⟩

/-- Closed witness for the C7 theorem on a fresh root: re-resolving
`'a/b'` returns node `2` again with no events, and `for('a')` (node `1`)
followed by `for('b')` reaches the same node `2` in the same final
state. -/
theorem c7_witness :
    Store.forName (Store.forName rootOnly 0 (.str "a/b")).1 0 (.str "a/b")
      = ((Store.forName rootOnly 0 (.str "a/b")).1, [], .ok 2) ∧
    ∃ evsb, Store.forName (Store.forName rootOnly 0 (.str "a")).1 1 (.str "b")
      = ((Store.forName rootOnly 0 (.str "a/b")).1, evsb, .ok 2) := by
  have h := c7_child_resolution_idempotent rootOnly 0 (by decide) (by decide)
  exact ⟨h.1 _ _ 2 rfl, h.2 _ _ 2 _ _ 1 rfl rfl⟩

/-- C6: during path resolution each intermediate segment behaves as
follows.  If a child of that name exists, descend into it with no state
change and no event.  Else, if no local item of that name exists either,
allocate a fresh child store whose parent is the current node, register
it under the segment name, emit a single `store-added {name, child}`
event on the current node, and continue into it — leaving every other
node untouched.  Else (a local item of that name exists) fail with the
path resolution error. -/
theorem c6_segment_cases (σ : State) (sid : Nat) (n : String) :
    (∀ c, lookupChild (getNode σ sid).children n = some c →
      stepSegment σ sid n = (σ, [], .ok c)) ∧
    (lookupChild (getNode σ sid).children n = none →
      mapHas (getNode σ sid).items n = false →
      sid < σ.nodes.length →
      ∃ σ', stepSegment σ sid n
          = (σ', [Event.storeAdded sid n σ.nodes.length], .ok σ.nodes.length) ∧
        σ'.nodes.length = σ.nodes.length + 1 ∧
        getNode σ' σ.nodes.length = ⟨[], [], some sid⟩ ∧
        lookupChild (getNode σ' sid).children n = some σ.nodes.length ∧
        (getNode σ' sid).items = (getNode σ sid).items ∧
        (∀ j, j < σ.nodes.length → j ≠ sid → getNode σ' j = getNode σ j)) ∧
    (lookupChild (getNode σ sid).children n = none →
      mapHas (getNode σ sid).items n = true →
      stepSegment σ sid n = (σ, [], .error pathErrorMsg)) := by
  refine ⟨fun c hc => ?_, fun hnone hitem hlt => ?_, fun hnone hitem => ?_⟩
  · simp only [stepSegment, hc]
  · refine ⟨setNode ⟨σ.nodes ++ [⟨[], [], some sid⟩]⟩ sid
      { getNode σ sid with children := (getNode σ sid).children ++ [(n, σ.nodes.length)] },
      ?_, ?_, ?_, ?_, ?_, ?_⟩
    · simp only [stepSegment, hnone, hitem, Bool.false_eq_true, if_false]
    · rw [length_setNode]; simp
    · rw [getNode_setNode_ne _ _ _ _ (Nat.ne_of_lt hlt)]
      exact getNode_append_self σ _
    · rw [getNode_setNode_self _ _ _ (by simpa using Nat.lt_succ_of_lt hlt)]
      exact lookupChild_append_none _ _ _ hnone
    · rw [getNode_setNode_self _ _ _ (by simpa using Nat.lt_succ_of_lt hlt)]
    · intro j hj hjs
      rw [getNode_setNode_ne _ _ _ _ (Ne.symm hjs)]
      exact getNode_append_lt σ _ j hj
  · simp only [stepSegment, hnone, hitem, if_true]

/-- Closed witness for the C6 theorem exercising all three cases: the
existing child `'child'` of the `rootChild` tree is descended into
unchanged; a fresh root creates, registers and announces node `1` for
`'child'`; a root holding item `'x'` rejects `'x'` as a path segment. -/
theorem c6_witness :
    stepSegment rootChild 0 "child" = (rootChild, [], .ok 1) ∧
    (∃ σ', stepSegment rootOnly 0 "child"
        = (σ', [Event.storeAdded 0 "child" rootOnly.nodes.length], .ok rootOnly.nodes.length) ∧
      σ'.nodes.length = rootOnly.nodes.length + 1 ∧
      getNode σ' rootOnly.nodes.length = ⟨[], [], some 0⟩ ∧
      lookupChild (getNode σ' 0).children "child" = some rootOnly.nodes.length ∧
      (getNode σ' 0).items = (getNode rootOnly 0).items ∧
      (∀ j, j < rootOnly.nodes.length → j ≠ 0 → getNode σ' j = getNode rootOnly j)) ∧
    stepSegment (Store.set rootOnly 0 (.str "x") "1").1 0 "x"
      = ((Store.set rootOnly 0 (.str "x") "1").1, [], .error pathErrorMsg) :=
  ⟨(c6_segment_cases rootChild 0 "child").1 1 (by decide),
   (c6_segment_cases rootOnly 0 "child").2.1 (by decide) (by decide) (by decide),
   (c6_segment_cases _ 0 "x").2.2 (by decide) (by decide)⟩

/-- C8: every name-accepting public operation (`for`, `has`, `get`,
`set`, `delete` and its `remove` alias) validates the name first: an
invalid name (non-string, empty, or whitespace-only) is rejected with the
invalid-name error before any traversal, child creation, state change or
event emission — the state comes back untouched and no event is
emitted. -/
theorem c8_invalid_names_rejected_first (σ : State) (sid : Nat) (v : JSVal)
    (val : Val) (h : isValidName v = false) :
    Store.forName σ sid v = (σ, [], .error invalidNameMsg) ∧
    Store.has σ sid v = .error invalidNameMsg ∧
    Store.get σ sid v = (σ, [], .error invalidNameMsg) ∧
    Store.set σ sid v val = (σ, [], .error invalidNameMsg) ∧
    Store.delete σ sid v = (σ, [], .error invalidNameMsg) ∧
    Store.remove σ sid v = (σ, [], .error invalidNameMsg) := by
  cases v <;>
    simp_all [Store.forName, Store.has, Store.get, Store.set, Store.delete,
      Store.remove, isValidName]

/-- Closed witness for the C8 theorem at the non-string name `123` and at
the whitespace-only string name, on a fresh root. -/
theorem c8_witness :
    (Store.forName rootOnly 0 (.num 123) = (rootOnly, [], .error invalidNameMsg) ∧
     Store.has rootOnly 0 (.num 123) = .error invalidNameMsg ∧
     Store.get rootOnly 0 (.num 123) = (rootOnly, [], .error invalidNameMsg) ∧
     Store.set rootOnly 0 (.num 123) "v" = (rootOnly, [], .error invalidNameMsg) ∧
     Store.delete rootOnly 0 (.num 123) = (rootOnly, [], .error invalidNameMsg) ∧
     Store.remove rootOnly 0 (.num 123) = (rootOnly, [], .error invalidNameMsg)) ∧
    Store.set rootOnly 0 (.str "  ") "v" = (rootOnly, [], .error invalidNameMsg) :=
  ⟨c8_invalid_names_rejected_first rootOnly 0 (.num 123) "v" (by decide),
   (c8_invalid_names_rejected_first rootOnly 0 (.str "  ") "v" (by decide)).2.2.2.1⟩

/-- C9: the mutating methods of a readonly view (as returned by
`parent()` and `root()`) are `readonlyMethod`, which throws the
readonly error unconditionally — for every argument combination,
well-formed or invalid, before any name validation — with no state
change and no event. -/
theorem c9_readonly_views_reject_mutations (σ : State) (sid : Nat)
    (r : RoView) (name : JSVal) (v : Val) (nested : Bool) :
    RoView.set σ r name v = (σ, [], .error roErrorMsg) ∧
    RoView.delete σ r name = (σ, [], .error roErrorMsg) ∧
    RoView.clear σ r nested = (σ, [], .error roErrorMsg) ∧
    RoView.set σ (Store.root σ sid) name v = (σ, [], .error roErrorMsg) ∧
    (∀ rp, Store.parent σ sid = some rp →
      RoView.set σ rp name v = (σ, [], .error roErrorMsg) ∧
      RoView.delete σ rp name = (σ, [], .error roErrorMsg) ∧
      RoView.clear σ rp nested = (σ, [], .error roErrorMsg)) :=
  ⟨rfl, rfl, rfl, rfl, fun _ _ => ⟨rfl, rfl, rfl⟩⟩

/-- Closed witness for the C9 theorem: in the root-plus-child tree, the
child's `parent()` view and the `root()` view both reject `set`,
`delete`, `clear` with the readonly error — here with the *invalid* name
`null`, showing the readonly rejection precedes name validation. -/
theorem c9_witness :
    Store.parent rootChild 1 = some ⟨0⟩ ∧
    RoView.set rootChild ⟨0⟩ .null "v" = (rootChild, [], .error roErrorMsg) ∧
    RoView.delete rootChild ⟨0⟩ .null = (rootChild, [], .error roErrorMsg) ∧
    RoView.clear rootChild ⟨0⟩ true = (rootChild, [], .error roErrorMsg) ∧
    RoView.set rootChild (Store.root rootChild 1) .null "v"
      = (rootChild, [], .error roErrorMsg) := by
  have h := c9_readonly_views_reject_mutations rootChild 1 ⟨0⟩ .null "v" true
  have hp : Store.parent rootChild 1 = some ⟨0⟩ := by decide
  exact ⟨hp, (h.2.2.2.2 ⟨0⟩ hp).1, (h.2.2.2.2 ⟨0⟩ hp).2.1, (h.2.2.2.2 ⟨0⟩ hp).2.2,
    h.2.2.2.1⟩

theorem mapHas_mapSet_self (m : List (String × Val)) (k : String) (v : Val) :
    mapHas (mapSet m k v) k = true := by
  unfold mapSet
  by_cases hh : mapHas m k = true
  · rw [if_pos hh]
    unfold mapHas at hh ⊢
    rw [List.any_eq_true] at hh ⊢
    obtain ⟨p, hp, hpk⟩ := hh
    exact ⟨(k, v), List.mem_map.2 ⟨p, hp, by simp [hpk]⟩, by simp⟩
  · rw [if_neg hh]
    unfold mapHas
    simp

theorem mapHas_mapDelete_self (m : List (String × Val)) (k : String) :
    mapHas (mapDelete m k) k = false := by
  unfold mapHas mapDelete
  rw [List.any_eq_false]
  intro p hp
  rw [List.mem_filter] at hp
  simpa using hp.2

/-- C10: a readonly view is not transitively readonly.  The view's `for`
is rebound to the underlying store, so `r.for(p)` is literally the
underlying node's `for(p)` — returning the same raw, writable child
store id — and on that resolved node `set` succeeds and mutates state
(`has` becomes true) and `delete` succeeds and mutates state back
(`has` becomes false); neither raises the readonly error. -/
theorem c10_view_children_writable (σ : State) (r : RoView) (p : JSVal) (v : Val) :
    RoView.forName σ r p = Store.forName σ r.nid p ∧
    (WF σ = true → r.nid < σ.nodes.length →
      ∀ σ' evs m, Store.forName σ r.nid p = (σ', evs, .ok m) →
        ∃ σ2 σ3,
          Store.set σ' m (.str "k") v = (σ2, [Event.itemSet m "k" v], .ok m) ∧
          Store.has σ2 m (.str "k") = .ok true ∧
          Store.delete σ2 m (.str "k") = (σ3, [Event.itemRemoved m "k"], .ok ()) ∧
          Store.has σ3 m (.str "k") = .ok false) := by
  refine ⟨rfl, fun hwf hr σ' evs m h => ?_⟩
  have hm : m < σ'.nodes.length := by
    cases p with
    | str s =>
        simp only [Store.forName] at h
        by_cases hv : validNameStr s = true
        · rw [if_pos hv] at h
          exact ((getChildStore_run _ σ r.nid σ' evs _ hwf hr h).2.2.2 m rfl).2
        · rw [if_neg hv] at h
          simp at h
    | num k => simp [Store.forName] at h
    | null => simp [Store.forName] at h
    | nan => simp [Store.forName] at h
    | regex => simp [Store.forName] at h
    | date => simp [Store.forName] at h
    | undef => simp [Store.forName] at h
  refine ⟨setNode σ' m { getNode σ' m with items := mapSet (getNode σ' m).items "k" v },
    ?_⟩
  have hg1 : getNode (setNode σ' m
      { getNode σ' m with items := mapSet (getNode σ' m).items "k" v }) m
      = { getNode σ' m with items := mapSet (getNode σ' m).items "k" v } :=
    getNode_setNode_self _ _ _ hm
  have hm2 : m < (setNode σ' m
      { getNode σ' m with items := mapSet (getNode σ' m).items "k" v }).nodes.length := by
    rw [length_setNode]; exact hm
  refine ⟨setNode _ m { getNode (setNode σ' m
      { getNode σ' m with items := mapSet (getNode σ' m).items "k" v }) m with
        items := mapDelete (getNode (setNode σ' m
          { getNode σ' m with items := mapSet (getNode σ' m).items "k" v }) m).items "k" },
    rfl, ?_, rfl, ?_⟩
  · show Except.ok (mapHas (getNode (setNode σ' m
      { getNode σ' m with items := mapSet (getNode σ' m).items "k" v }) m).items "k")
      = Except.ok true
    rw [hg1]
    simp [mapHas_mapSet_self]
  · show Except.ok (mapHas (getNode (setNode _ m _) m).items "k") = Except.ok false
    rw [getNode_setNode_self _ _ _ hm2, hg1]
    simp [mapHas_mapDelete_self]

/-- Closed witness for the C10 theorem: the `root()` view taken from the
child node in the root-plus-child tree, traversed with `for('kid')`,
yields a writable store on which `set`/`has`/`delete` behave as the
theorem states. -/
theorem c10_witness :
    RoView.forName rootChild (Store.root rootChild 1) (.str "kid")
      = Store.forName rootChild 0 (.str "kid") ∧
    ∃ σ2 σ3,
      Store.set (Store.forName rootChild 0 (.str "kid")).1 2 (.str "k") "v"
        = (σ2, [Event.itemSet 2 "k" "v"], .ok 2) ∧
      Store.has σ2 2 (.str "k") = .ok true ∧
      Store.delete σ2 2 (.str "k") = (σ3, [Event.itemRemoved 2 "k"], .ok ()) ∧
      Store.has σ3 2 (.str "k") = .ok false := by
  have h := c10_view_children_writable rootChild (Store.root rootChild 1) (.str "kid") "v"
  have hroot : (Store.root rootChild 1).nid = 0 := by decide
  refine ⟨h.1, ?_⟩
  have h2 := hroot ▸ h.2
  exact h2 (by decide) (by decide) _ _ 2 rfl

/-- With any fuel left, a clear's event list always ends with the
clearing node's own `store-cleared`. -/
theorem clearFuel_ends {fuel : Nat} (hf : 0 < fuel) (σ : State) (sid : Nat)
    (b : Bool) :
    ∃ pre, (clearFuel fuel σ sid b).2 = pre ++ [Event.storeCleared sid] := by
  cases fuel with
  | zero => omega
  | succ m => exact ⟨_, rfl⟩

/-- Folding child clears over a child list keeps every accumulated event
and contributes each child's own `store-cleared`. -/
theorem clearChildren_mem (fuel : Nat) (hf : 0 < fuel) :
    ∀ (cs : List (String × Nat)) (acc : State × List Event),
      (∀ e, e ∈ acc.2 →
        e ∈ (cs.foldl (fun (a : State × List Event) (c : String × Nat) =>
          ((clearFuel fuel a.1 c.2 true).1, a.2 ++ (clearFuel fuel a.1 c.2 true).2)) acc).2) ∧
      (∀ p, p ∈ cs →
        Event.storeCleared p.2 ∈ (cs.foldl (fun (a : State × List Event) (c : String × Nat) =>
          ((clearFuel fuel a.1 c.2 true).1, a.2 ++ (clearFuel fuel a.1 c.2 true).2)) acc).2) := by
  intro cs
  induction cs with
  | nil =>
      intro acc
      exact ⟨fun e he => by simpa using he, fun p hp => absurd hp (List.not_mem_nil p)⟩
  | cons hd tl ih =>
      intro acc
      constructor
      · intro e he
        rw [List.foldl_cons]
        exact (ih _).1 e (List.mem_append.2 (Or.inl he))
      · intro p hp
        rw [List.foldl_cons]
        rcases List.mem_cons.1 hp with hph | hpt
        · subst hph
          obtain ⟨pre, hpre⟩ := clearFuel_ends hf acc.1 p.2 true
          refine (ih _).1 _ ?_
          rw [List.mem_append, hpre]
          exact Or.inr (List.mem_append.2 (Or.inr (List.mem_singleton.2 rfl)))
        · exact (ih _).2 p hpt

/-- C5 (amended): `clear(false)` removes exactly this node's items
(emitting one `item-removed` per item, then the single `store-cleared`)
and touches no other node; `clear(true)` first emits this node's
item removals, then the children's full clear-and-emit sequences, and
emits this node's own single `store-cleared` **last**, after every
child's `store-cleared` — not before the children as the claim
stated. -/
theorem c5_amended_clear_order (σ : State) (sid : Nat)
    (hwf : WF σ = true) (hs : sid < σ.nodes.length) :
    Store.clear σ sid false
      = (setNode σ sid { getNode σ sid with items := [] },
         (getNode σ sid).items.map (fun p => Event.itemRemoved sid p.1)
           ++ [Event.storeCleared sid]) ∧
    (∃ pre, (Store.clear σ sid true).2
        = (getNode σ sid).items.map (fun p => Event.itemRemoved sid p.1)
            ++ pre ++ [Event.storeCleared sid] ∧
      ∀ p, p ∈ (getNode σ sid).children → Event.storeCleared p.2 ∈ pre) := by
  obtain ⟨m, hm⟩ : ∃ m, σ.nodes.length = m + 1 :=
    ⟨σ.nodes.length - 1, by omega⟩
  constructor
  · show clearFuel σ.nodes.length σ sid false = _
    rw [hm]
    simp only [clearFuel, Bool.false_eq_true, if_false, List.append_nil]
  · show ∃ pre, (clearFuel σ.nodes.length σ sid true).2 = _ ∧ _
    rw [hm]
    simp only [clearFuel, if_true]
    refine ⟨((getNode σ sid).children.foldl
      (fun (a : State × List Event) (c : String × Nat) =>
        ((clearFuel m a.1 c.2 true).1, a.2 ++ (clearFuel m a.1 c.2 true).2))
      (setNode σ sid { getNode σ sid with items := [] }, [])).2, rfl, ?_⟩
    intro p hp
    have hple := ((WF_iff σ).1 hwf sid hs).1 p hp
    have hmpos : 0 < m := by omega
    exact (clearChildren_mem m hmpos (getNode σ sid).children
      (setNode σ sid { getNode σ sid with items := [] }, [])).2 p hp

/-- Closed witness for the amended C5 theorem on the concrete
root-plus-child tree with one item each. -/
theorem c5_amended_witness :
    Store.clear clearTree 0 false
      = (setNode clearTree 0 { getNode clearTree 0 with items := [] },
         (getNode clearTree 0).items.map (fun p => Event.itemRemoved 0 p.1)
           ++ [Event.storeCleared 0]) ∧
    (∃ pre, (Store.clear clearTree 0 true).2
        = (getNode clearTree 0).items.map (fun p => Event.itemRemoved 0 p.1)
            ++ pre ++ [Event.storeCleared 0] ∧
      ∀ p, p ∈ (getNode clearTree 0).children → Event.storeCleared p.2 ∈ pre) :=
  c5_amended_clear_order clearTree 0 (by decide) (by decide)

end CycleStore
